import Mathlib

set_option maxRecDepth 8000

namespace Spec2Proof

/-!
Shallow embedding of the history ingestion and query subsystem:
the streaming `ThermostatHistory` extractor, the date-range splitter,
the date-partitioned store writer with merge/dedup, the metadata index,
the paginated range-query engine and the per-key rate-limited dispatcher.
Every definition is translated from the JavaScript source; time-valued
fields that the source fills with `Date.now()`/`new Date().toISOString()`
are passed in as explicit parameters, and file-system reads are passed in
as already-obtained contents, since only their success/failure structure
matters to the program logic.
-/

/-- JSON values as produced by `JSON.parse`.  Number literals keep their
source lexeme (the claims under verification never compare numeric values
across distinct lexemes). -/
inductive Json where
  | null : Json
  | bool (b : Bool) : Json
  | num (lexeme : String) : Json
  | str (s : String) : Json
  | arr (items : List Json) : Json
  | obj (fields : List (String × Json)) : Json

def isWsChar (c : Char) : Bool :=
  c == ' ' || c == '\t' || c == '\n' || c == '\r'

def skipWs (cs : List Char) : List Char := cs.dropWhile isWsChar

def hexVal (c : Char) : Option Nat :=
  let n := c.toNat
  if 48 ≤ n ∧ n ≤ 57 then some (n - 48)
  else if 97 ≤ n ∧ n ≤ 102 then some (n - 87)
  else if 65 ≤ n ∧ n ≤ 70 then some (n - 55)
  else none

def escChar : Char → Option Char
  | '"' => some '"'
  | '\\' => some '\\'
  | '/' => some '/'
  | 'b' => some (Char.ofNat 8)
  | 'f' => some (Char.ofNat 12)
  | 'n' => some (Char.ofNat 10)
  | 'r' => some (Char.ofNat 13)
  | 't' => some (Char.ofNat 9)
  | _ => none

/-- Body of a JSON string literal (after the opening quote): decodes
escapes, rejects unescaped control characters and unterminated strings. -/
def parseStrAux : List Char → List Char → Option (String × List Char)
  | [], _ => none
  | '"' :: rest, acc => some (String.mk acc.reverse, rest)
  | '\\' :: rest, acc =>
    match rest with
    | 'u' :: h1 :: h2 :: h3 :: h4 :: rest2 =>
      match hexVal h1, hexVal h2, hexVal h3, hexVal h4 with
      | some a, some b, some c, some d =>
        parseStrAux rest2 (Char.ofNat (((a * 16 + b) * 16 + c) * 16 + d) :: acc)
      | _, _, _, _ => none
    | e :: rest2 =>
      match escChar e with
      | some c => parseStrAux rest2 (c :: acc)
      | none => none
    | [] => none
  | c :: rest, acc =>
    if c.toNat < 32 then none else parseStrAux rest (c :: acc)

def takeDigits (cs : List Char) : List Char × List Char :=
  (cs.takeWhile Char.isDigit, cs.dropWhile Char.isDigit)

def parseFrac (cs : List Char) : Option (List Char × List Char) :=
  match cs with
  | '.' :: r =>
    let p := takeDigits r
    if p.1.isEmpty then none else some ('.' :: p.1, p.2)
  | _ => some ([], cs)

def parseExpDigits (mark : List Char) (cs : List Char) :
    Option (List Char × List Char) :=
  let p := takeDigits cs
  if p.1.isEmpty then none else some (mark ++ p.1, p.2)

def parseExp (cs : List Char) : Option (List Char × List Char) :=
  match cs with
  | 'e' :: '+' :: r => parseExpDigits ['e', '+'] r
  | 'e' :: '-' :: r => parseExpDigits ['e', '-'] r
  | 'e' :: r => parseExpDigits ['e'] r
  | 'E' :: '+' :: r => parseExpDigits ['E', '+'] r
  | 'E' :: '-' :: r => parseExpDigits ['E', '-'] r
  | 'E' :: r => parseExpDigits ['E'] r
  | _ => some ([], cs)

def parseNumBody (cs : List Char) : Option (String × List Char) :=
  let p := takeDigits cs
  if p.1.isEmpty then none
  else
    match parseFrac p.2 with
    | none => none
    | some (fr, r2) =>
      match parseExp r2 with
      | none => none
      | some (ex, r3) => some (String.mk (p.1 ++ fr ++ ex), r3)

def parseNumAux (cs : List Char) : Option (String × List Char) :=
  match cs with
  | '-' :: r => (parseNumBody r).map (fun q => ("-" ++ q.1, q.2))
  | _ => parseNumBody cs

/-- Parsing mode: a plain value, the items of an array already opened, or
the fields of an object already opened (with the fields read so far). -/
inductive PMode where
  | val : PMode
  | arrItems (acc : List Json) : PMode
  | objFields (acc : List (String × Json)) : PMode

/-- Fuel-driven strict JSON parser (the model of `JSON.parse`). -/
def parseF : Nat → PMode → List Char → Option (Json × List Char)
  | 0, _, _ => none
  | Nat.succ fuel, PMode.val, cs0 =>
    match skipWs cs0 with
    | 'n' :: 'u' :: 'l' :: 'l' :: rest => some (Json.null, rest)
    | 't' :: 'r' :: 'u' :: 'e' :: rest => some (Json.bool true, rest)
    | 'f' :: 'a' :: 'l' :: 's' :: 'e' :: rest => some (Json.bool false, rest)
    | '"' :: rest => (parseStrAux rest []).map (fun p => (Json.str p.1, p.2))
    | '[' :: rest =>
      match skipWs rest with
      | ']' :: r2 => some (Json.arr [], r2)
      | cs2 => parseF fuel (PMode.arrItems []) cs2
    | '\x7b' :: rest =>
      match skipWs rest with
      | '\x7d' :: r2 => some (Json.obj [], r2)
      | cs2 => parseF fuel (PMode.objFields []) cs2
    | cs => (parseNumAux cs).map (fun p => (Json.num p.1, p.2))
  | Nat.succ fuel, PMode.arrItems acc, cs =>
    match parseF fuel PMode.val cs with
    | none => none
    | some (v, r) =>
      match skipWs r with
      | ',' :: r2 => parseF fuel (PMode.arrItems (acc ++ [v])) r2
      | ']' :: r2 => some (Json.arr (acc ++ [v]), r2)
      | _ => none
  | Nat.succ fuel, PMode.objFields acc, cs =>
    match skipWs cs with
    | '"' :: rest =>
      match parseStrAux rest [] with
      | none => none
      | some (k, r1) =>
        match skipWs r1 with
        | ':' :: r2 =>
          match parseF fuel PMode.val r2 with
          | none => none
          | some (v, r3) =>
            match skipWs r3 with
            | ',' :: r4 => parseF fuel (PMode.objFields (acc ++ [(k, v)])) r4
            | '\x7d' :: r4 => some (Json.obj (acc ++ [(k, v)]), r4)
            | _ => none
        | _ => none
    | _ => none

/-- Model of `JSON.parse`: one value, optionally surrounded by whitespace;
anything else (including trailing text) is a parse error (`none`). -/
def parseJson (s : String) : Option Json :=
  match parseF (2 * s.length + 8) PMode.val s.toList with
  | none => none
  | some (v, rest) => if (skipWs rest).isEmpty then some v else none

/-- Field lookup on a parsed JSON object; later duplicate keys win, as in
JavaScript. -/
def jField (j : Json) (k : String) : Option Json :=
  match j with
  | Json.obj fs => (fs.reverse.find? (fun p => p.1 == k)).map (fun p => p.2)
  | _ => none

def jStrField (k : String) (j : Json) : Option String :=
  match jField j k with
  | some (Json.str s) => some s
  | _ => none

/-- The fresh empty index built by `loadMetadata` when the index document
cannot be read or parsed (src/pelican/metadata.js lines 6-19).  `now`
stands for `new Date().toISOString()`. -/
def emptyMetadataJson (now : String) : Json :=
  Json.obj [("sites", Json.obj []), ("indexVersion", Json.str "1.0"),
            ("lastUpdated", Json.str now)]

/-- `loadMetadata` (src/pelican/metadata.js): `readResult` is the outcome
of `readFile` (`none` = the read threw: file absent or unreadable); any
failure of the read or of `JSON.parse` is caught and replaced by the
fresh empty index, and a successful parse is returned unvalidated. -/
def loadMetadata (now : String) (readResult : Option String) : Json :=
  match readResult with
  | none => emptyMetadataJson now
  | some content =>
    match parseJson content with
    | none => emptyMetadataJson now
    | some j => j


/-! ## Partitioned store writer (src/unnamed/part_021) -/

/-- One history sample.  Only `timestamp` is inspected by the writer's
grouping, dedup and sort; the rest of the fixed field set is abstracted
into `payload`. -/
structure HRecord where
  timestamp : String
  payload : String
deriving DecidableEq

/-- `extractDateFromTimestamp` (part_021 lines 62-66): `null` for a falsy
(empty) timestamp, else the 10-character prefix when it matches the
pattern `dddd-dd-dd`. -/
def extractDateFromTimestamp (ts : String) : Option String :=
  if ts = "" then none
  else
    match ts.toList with
    | y1 :: y2 :: y3 :: y4 :: '-' :: m1 :: m2 :: '-' :: d1 :: d2 :: _ =>
      if y1.isDigit && y2.isDigit && y3.isDigit && y4.isDigit &&
          m1.isDigit && m2.isDigit && d1.isDigit && d2.isDigit then
        some (String.mk [y1, y2, y3, y4, '-', m1, m2, '-', d1, d2])
      else none
    | _ => none

/-- Lexicographic comparison by character code; for the ASCII timestamp
and date strings this program compares it coincides with
`a.localeCompare(b) ≤ 0`. -/
def charsLe : List Char → List Char → Bool
  | [], _ => true
  | _ :: _, [] => false
  | a :: as, b :: bs => if a = b then charsLe as bs else decide (a < b)

def tsLeB (a b : HRecord) : Bool := charsLe a.timestamp.toList b.timestamp.toList

def insertRec (r : HRecord) : List HRecord → List HRecord
  | [] => [r]
  | x :: xs => if tsLeB r x then r :: x :: xs else x :: insertRec r xs

/-- `.sort((a, b) => (a.timestamp || "").localeCompare(b.timestamp || ""))`
(part_021 lines 140-142). -/
def sortRecs : List HRecord → List HRecord
  | [] => []
  | x :: xs => insertRec x (sortRecs xs)

/-- The dedup `Map` walk of part_021 lines 132-138 over
`[...existingRecords, ...records]`: keep the first record seen for each
truthy timestamp key, drop records whose timestamp is falsy (empty);
`seen` is the set of keys already in the map. -/
def dedupRecs : List HRecord → List String → List HRecord
  | [], _ => []
  | r :: rs, seen =>
    if r.timestamp ≠ "" ∧ r.timestamp ∉ seen then
      r :: dedupRecs rs (r.timestamp :: seen)
    else dedupRecs rs seen

/-- The merge-write of one partition (part_021 lines 131-144): first-seen
wins dedup by timestamp over existing-then-incoming, then sort ascending
by timestamp. -/
def mergeRecords (existing incoming : List HRecord) : List HRecord :=
  sortRecs (dedupRecs (existing ++ incoming) [])

def isSegChar (c : Char) : Bool :=
  c.isAlpha || c.isDigit || c == '.' || c == '_' || c == '-'

def sanitizeAux : Bool → List Char → List Char
  | _, [] => []
  | inRun, c :: cs =>
    if isSegChar c then c :: sanitizeAux false cs
    else if inRun then sanitizeAux true cs
    else '-' :: sanitizeAux true cs

/-- `sanitizeFileSegment` (part_021 lines 45-50): trim, replace each run
of characters outside A-Za-z0-9._- with a single dash, fall back when the
result is empty. -/
def sanitizeFileSegment (v : String) (fallback : String) : String :=
  let cleaned := String.mk (sanitizeAux false v.trim.toList)
  if cleaned = "" then fallback else cleaned

/-- One emitted array element `{serialNo, History}`; a missing/falsy
serialNo is modelled as the empty string, a missing/non-array History as
the empty list. -/
structure HEntry where
  serialNo : String
  History : List HRecord
deriving DecidableEq

/-- The partition files on disk, keyed by (serial segment, date); the
value is the parsed array content of the partition file (a file that is
absent, unreadable or not a JSON array reads as `[]` in the merge, lines
121-129). -/
abbrev Store : Type := List ((String × String) × List HRecord)

def lookupStore (st : Store) (k : String × String) : Option (List HRecord) :=
  (st.find? (fun p => decide (p.1 = k))).map (fun p => p.2)

def insertStore (k : String × String) (v : List HRecord) : Store → Store
  | [] => [(k, v)]
  | (k2, v2) :: rest =>
    if k2 = k then (k, v) :: rest else (k2, v2) :: insertStore k v rest

def addToGroup (d : String) (r : HRecord) :
    List (String × List HRecord) → List (String × List HRecord)
  | [] => [(d, [r])]
  | (d2, rs) :: rest =>
    if d2 = d then (d2, rs ++ [r]) :: rest else (d2, rs) :: addToGroup d r rest

/-- One step of the `recordsByDate` grouping: a record without an
extractable date is skipped, otherwise it is appended to its date's
group. -/
def groupStep (gs : List (String × List HRecord)) (r : HRecord) :
    List (String × List HRecord) :=
  match extractDateFromTimestamp r.timestamp with
  | none => gs
  | some d => addToGroup d r gs

/-- `recordsByDate` (part_021 lines 93-102): group records by extracted
date, keys in first-seen order, records without an extractable date
skipped. -/
def groupByDate (records : List HRecord) : List (String × List HRecord) :=
  records.foldl groupStep []

/-- The fact reported per written partition: the `writtenFiles` entry and
`onEntryWritten` payload of part_021 lines 155-170 (the `filePath`, a
deterministic function of site, serial segment and date, is not
separately modelled). -/
structure WriteFact where
  siteSlug : String
  serialNo : String
  date : String
  entryCount : Nat
deriving DecidableEq

def writeGroups (siteSlug serialNo serialSeg : String) :
    List (String × List HRecord) → Store → List WriteFact → Store × List WriteFact
  | [], st, facts => (st, facts)
  | (date, recs) :: rest, st, facts =>
    let merged := mergeRecords ((lookupStore st (serialSeg, date)).getD []) recs
    writeGroups siteSlug serialNo serialSeg rest
      (insertStore (serialSeg, date) merged st)
      (facts ++ [⟨siteSlug, serialNo, date, merged.length⟩])

/-- `writeThermostatHistoryByDate` (part_021 lines 72-174) as a function
of the store: `none` is the early `return null` (missing serial or no
History records); otherwise each per-date group is merged into its
partition and one fact per (device, date) is reported. -/
def writeThermostatHistoryByDate (siteSlug : String) (st : Store) (e : HEntry) :
    Store × Option (List WriteFact) :=
  if e.serialNo = "" then (st, none)
  else if e.History = [] then (st, none)
  else
    let r := writeGroups siteSlug e.serialNo (sanitizeFileSegment e.serialNo "unknown")
      (groupByDate e.History) st []
    (r.1, some r.2)

/-! ## Metadata index (src/pelican/metadata.js lines 27-65) -/

structure IndexRange where
  date : String
  entryCount : Nat
  filePath : String
deriving DecidableEq

structure DeviceMeta where
  dateRanges : List IndexRange
  totalEntries : Nat
deriving DecidableEq

abbrev SiteDevices : Type := List (String × DeviceMeta)
abbrev Metadata : Type := List (String × SiteDevices)

structure MetaFact where
  siteSlug : String
  serialNo : String
  date : String
  entryCount : Nat
  filePath : String
deriving DecidableEq

def lookupAssoc {α : Type} (l : List (String × α)) (k : String) : Option α :=
  (l.find? (fun p => decide (p.1 = k))).map (fun p => p.2)

def insertAssoc {α : Type} (k : String) (v : α) :
    List (String × α) → List (String × α)
  | [] => [(k, v)]
  | (k2, v2) :: rest =>
    if k2 = k then (k, v) :: rest else (k2, v2) :: insertAssoc k v rest

def insertRange (r : IndexRange) : List IndexRange → List IndexRange
  | [] => [r]
  | x :: xs =>
    if charsLe r.date.toList x.date.toList then r :: x :: xs
    else x :: insertRange r xs

/-- `dateRanges.sort((a, b) => a.date.localeCompare(b.date))`. -/
def sortRanges : List IndexRange → List IndexRange
  | [] => []
  | x :: xs => insertRange x (sortRanges xs)

/-- Mutation of the found (first) existing range, lines 47-49. -/
def replaceRange (f : MetaFact) : List IndexRange → List IndexRange
  | [] => []
  | r :: rs =>
    if r.date = f.date then
      { r with entryCount := f.entryCount, filePath := f.filePath } :: rs
    else r :: replaceRange f rs

def sumCounts (rs : List IndexRange) : Nat := (rs.map (fun r => r.entryCount)).sum

/-- `updateMetadataForEntry` (metadata.js lines 27-65): get-or-create the
site and device, replace or insert-and-sort the range for the fact's
date, recompute the device total from all of its ranges.  The real-time
`lastUpdated` fields and the `path.relative` computation are not
modelled. -/
def updateMetadataForEntry (m : Metadata) (f : MetaFact) : Metadata :=
  let site := (lookupAssoc m f.siteSlug).getD []
  let device := (lookupAssoc site f.serialNo).getD ⟨[], 0⟩
  let ranges :=
    if device.dateRanges.any (fun r => decide (r.date = f.date)) then
      replaceRange f device.dateRanges
    else
      sortRanges (device.dateRanges ++ [⟨f.date, f.entryCount, f.filePath⟩])
  insertAssoc f.siteSlug (insertAssoc f.serialNo ⟨ranges, sumCounts ranges⟩ site) m

/-- The index consistency invariant: every device's `totalEntries` equals
the sum of the `entryCount`s of its `dateRanges`. -/
def MetaInv (m : Metadata) : Prop :=
  ∀ sp ∈ m, ∀ dp ∈ sp.2, dp.2.totalEntries = sumCounts dp.2.dateRanges

/-! ## Range query engine (src/pelican/query.js lines 47-110) -/

structure QRecord where
  timestamp : String
  serialNo : String
  name : String
  groupName : String
  payload : String
deriving DecidableEq

/-- Parsed content of one candidate file, as branched on in `queryFiles`
lines 66-80: a plain array, a `{serialNo, name, groupName, History}`
object, a single entry (an object with a truthy `timestamp`), any other
JSON shape, or a file whose read or parse threw (caught: the file is
skipped). -/
inductive FileData where
  | arr (entries : List QRecord)
  | histObj (serialNo name groupName : String) (hist : List QRecord)
  | single (r : QRecord)
  | other
  | unreadable
deriving DecidableEq

def entriesOfFile : FileData → List QRecord
  | .arr es => es
  | .histObj s n g hs =>
    hs.map (fun e => { e with serialNo := s, name := n, groupName := g })
  | .single r => [r]
  | .other => []
  | .unreadable => []

structure QState where
  results : List QRecord
  skipped : Nat
  yielded : Nat

def qEntriesLoop (limit skipCount : Nat) : QState → List QRecord → QState
  | st, [] => st
  | st, e :: es =>
    if st.skipped < skipCount then
      qEntriesLoop limit skipCount { st with skipped := st.skipped + 1 } es
    else if limit ≤ st.yielded then st
    else
      qEntriesLoop limit skipCount
        { st with results := st.results ++ [e], yielded := st.yielded + 1 } es

def qFilesLoop (limit skipCount : Nat) : QState → List FileData → QState
  | st, [] => st
  | st, f :: fs =>
    if limit ≤ st.yielded then st
    else qFilesLoop limit skipCount (qEntriesLoop limit skipCount st (entriesOfFile f)) fs

structure QueryResult where
  data : List QRecord
  page : Nat
  limit : Nat
  hasMore : Bool
  totalReturned : Nat
deriving DecidableEq

/-- `queryFiles` (query.js lines 47-110): skip `page * limit` entries,
collect up to `limit`, stop as soon as the page is full;
`hasMore := yielded === limit && files.length > 0`. -/
def queryFiles (files : List FileData) (page limit : Nat) : QueryResult :=
  let st := qFilesLoop limit (page * limit) ⟨[], 0, 0⟩ files
  ⟨st.results, page, limit, (st.yielded == limit) && !files.isEmpty, st.results.length⟩

/-- Total number of records a query could ever see in `files`. -/
def totalEntriesOfFiles (files : List FileData) : Nat :=
  (files.map (fun f => (entriesOfFile f).length)).sum

/-! ## Range splitter (src/unnamed/part_021 lines 459-515)

Times are modelled as milliseconds since an epoch (`Nat`) in a fixed
timezone without DST, so `setHours(23,59,59,999)` and the next-day
rollover are arithmetic on `DAYMS`-sized days. -/

def DAYMS : Nat := 86400000

/-- `d.setHours(23, 59, 59, 999)` applied to the instant `t`. -/
def endOfDayMs (t : Nat) : Nat := t / DAYMS * DAYMS + (DAYMS - 1)

/-- `d.setDate(d.getDate() + 1); d.setHours(0, 0, 0, 0)`. -/
def nextDayStartMs (t : Nat) : Nat := t / DAYMS * DAYMS + DAYMS

/-- The `while (cursor <= end)` loop of `splitDateRange`; `fuel` is an
upper bound on the iteration count (the cursor advances at least one day
per iteration). -/
def splitGo (chunkDays endMs : Nat) : Nat → Nat → List (Nat × Nat)
  | 0, _ => []
  | Nat.succ fuel, cursor =>
    if cursor ≤ endMs then
      let rawEnd := cursor + chunkDays * DAYMS - 1
      let re1 := endOfDayMs (min endMs rawEnd)
      let rangeEnd := if endMs < re1 then endMs else re1
      let nextStart := nextDayStartMs rangeEnd
      (cursor, rangeEnd) ::
        (if nextStart ≤ cursor then [] else splitGo chunkDays endMs fuel nextStart)
    else []

/-- `splitDateRange(startDateTime, endDateTime, chunkDays)` (part_021
lines 459-515) over millisecond instants; `Except.error` models the
thrown validation errors (`MAX_RANGE_DAYS = 30`). -/
def splitDateRange (startMs endMs chunkDays : Nat) :
    Except String (List (Nat × Nat)) :=
  if chunkDays < 1 ∨ 30 < chunkDays then
    Except.error "chunkDays must be between 1 and 30"
  else if endMs < startMs then
    Except.error "startDateTime must be before endDateTime"
  else Except.ok (splitGo chunkDays endMs (endMs / DAYMS + 2) startMs)

/-- Exact coverage of `[s, e]` by a contiguous chain of sub-spans, each at
most `cd` days long: the first span starts at `s`, each span is nonempty
and at most `cd * DAYMS` milliseconds, each later span starts one
millisecond after its predecessor ends, and the last span ends at `e`. -/
def spanChainOk (cd : Nat) : Nat → Nat → List (Nat × Nat) → Prop
  | _, _, [] => False
  | s, e, [(a, b)] => a = s ∧ b = e ∧ a ≤ b ∧ b + 1 ≤ a + cd * DAYMS
  | s, e, (a, b) :: sp :: rest =>
    a = s ∧ a ≤ b ∧ b + 1 ≤ a + cd * DAYMS ∧ spanChainOk cd (b + 1) e (sp :: rest)

/-! ## Rate-limited dispatcher -/

/-- One dispatched submission: task id, the task's own running time,
dispatch time, the time the dispatcher's `finally` runs (task settled or
race decided), and whether the 10 s race rejected it. -/
structure Dispatch where
  taskId : Nat
  durMs : Nat
  dispatchedAt : Nat
  settledAt : Nat
  timedOut : Bool
deriving DecidableEq

/-- `_runQueue` of src/campus-optimizer/co-api.js (lines 31-50): each
queued `(taskId, durMs)` waits until `max(now, lastRunMs + intervalMs)`,
runs to completion — there is no timeout — and only then arms the next
timer.  Timers are ideal (fire exactly at their due time). -/
def runQueueCoApi (intervalMs : Nat) : Nat → Nat → List (Nat × Nat) → List Dispatch
  | _, _, [] => []
  | lastRun, now, (tid, dur) :: rest =>
    let disp := max now (lastRun + intervalMs)
    ⟨tid, dur, disp, disp + dur, false⟩ ::
      runQueueCoApi intervalMs disp (disp + dur) rest

/-- `_runQueue` of the server co-client (second file under
src/server/routes/dates.js, lines 75-110): the task is raced against a
10 s timer, so the drain continues at `dispatch + min(dur, 10000)` and
the submission is rejected with a timeout error when the timer wins (an
exact 10 s tie is resolved for the timer, which was armed first). -/
def runQueueCoClient (intervalMs : Nat) : Nat → Nat → List (Nat × Nat) → List Dispatch
  | _, _, [] => []
  | lastRun, now, (tid, dur) :: rest =>
    let disp := max now (lastRun + intervalMs)
    let fin := disp + min dur 10000
    ⟨tid, dur, disp, fin, decide (10000 ≤ dur)⟩ ::
      runQueueCoClient intervalMs disp fin rest

def addSubmission (key : String) (item : Nat × Nat) :
    List (String × List (Nat × Nat)) → List (String × List (Nat × Nat))
  | [] => [(key, [item])]
  | (k, q) :: rest =>
    if k = key then (k, q ++ [item]) :: rest
    else (k, q) :: addSubmission key item rest

/-- `_enqueueWithRateLimit` routing: each submission is pushed onto the
queue of its own key's lazily-created limiter state (`_getLimiterState`),
in submission order. -/
def getLimiterQueues (subs : List (String × Nat × Nat)) :
    List (String × List (Nat × Nat)) :=
  subs.foldl (fun qs s => addSubmission s.1 s.2 qs) []

/-! ## Stream extractor (`createHistoryStreamParser`, part_021 lines 213-391) -/

/-- The closure state of `createHistoryStreamParser`, plus the observable
history of the run: `emitted` collects the raw slice passed to
`emitHistory` for every successful emission (`entryIndex` is its length),
and `failed` records that `JSON.parse` threw inside `emitHistory`,
aborting the stream. -/
structure PState where
  buffer : List Char
  capturing : Bool
  historyFound : Bool
  historyCompleted : Bool
  inString : Bool
  escapeNext : Bool
  braceDepth : Nat
  objStart : Option Nat
  tailText : List Char
  emitted : List (List Char)
  failed : Bool
deriving DecidableEq

def initPState : PState :=
  ⟨[], false, false, false, false, false, 0, none, [], [], false⟩

def keyChars : List Char := "\"ThermostatHistory\"".toList

def streamTailLimit : Nat := 10000

/-- `appendTail` (lines 253-259): append, keep at most the last
`tailLimit` characters. -/
def appendTail (tail add : List Char) : List Char :=
  let t := tail ++ add
  if streamTailLimit < t.length then t.drop (t.length - streamTailLimit) else t

/-- `buffer.indexOf(pat)`. -/
def findSub (pat : List Char) : List Char → Option Nat
  | [] => none
  | c :: rest =>
    if pat.isPrefixOf (c :: rest) then some 0
    else (findSub pat rest).map (fun i => i + 1)

/-- `buffer.indexOf(ch, from)`. -/
def findCharFrom (ch : Char) (buf : List Char) (start : Nat) : Option Nat :=
  (findSub [ch] (buf.drop start)).map (fun i => i + start)

/-- `.replace(/^[\s,]+/, "")` after an emission (line 341); the source's
`\s` also covers rarer Unicode whitespace, which these payloads do not
contain. -/
def isWsOrComma (c : Char) : Bool :=
  c == ' ' || c == '\t' || c == '\n' || c == '\r' || c == ','

/-- The `while (index < buffer.length)` scanning loop (lines 303-375),
including the post-loop buffer retention.  The state fields are the
closure variables; `buffer`/`index` are the locals of `feed`.  Fuel
decreases on every step; `buffer.length + 1` is always sufficient since
`buffer.length - index` strictly decreases. -/
def scanCap : Nat → PState → List Char → Nat → PState
  | 0, p, buf, _ => { p with buffer := buf, failed := true }
  | Nat.succ fuel, p, buf, index =>
    match (buf.drop index).head? with
    | none =>
      match p.objStart with
      | some os =>
        if 0 < os then { p with buffer := buf.drop os, objStart := some 0 }
        else { p with buffer := buf }
      | none => { p with buffer := buf }
    | some c =>
      if p.inString then
        if p.escapeNext then scanCap fuel { p with escapeNext := false } buf (index + 1)
        else if c = '\\' then scanCap fuel { p with escapeNext := true } buf (index + 1)
        else if c = '"' then scanCap fuel { p with inString := false } buf (index + 1)
        else scanCap fuel p buf (index + 1)
      else if c = '"' then scanCap fuel { p with inString := true } buf (index + 1)
      else if c = '\x7b' then
        let p2 := if p.braceDepth = 0 then { p with objStart := some index } else p
        scanCap fuel { p2 with braceDepth := p2.braceDepth + 1 } buf (index + 1)
      else if c = '\x7d' then
        let d := if 0 < p.braceDepth then p.braceDepth - 1 else p.braceDepth
        match p.objStart with
        | some os =>
          if d = 0 then
            let slice := (buf.drop os).take (index + 1 - os)
            let buf2 := (buf.drop (index + 1)).dropWhile isWsOrComma
            match parseJson (String.mk slice) with
            | some _ =>
              scanCap fuel
                { p with braceDepth := d, objStart := none,
                         emitted := p.emitted ++ [slice] } buf2 0
            | none => { p with braceDepth := d, buffer := buf2, failed := true }
          else scanCap fuel { p with braceDepth := d } buf (index + 1)
        | none => scanCap fuel { p with braceDepth := d } buf (index + 1)
      else if c = ']' ∧ p.braceDepth = 0 then
        { p with tailText := appendTail p.tailText (buf.drop (index + 1)),
                 buffer := [], capturing := false, historyCompleted := true }
      else scanCap fuel p buf (index + 1)

/-- The body of `feed` once the joined buffer is in hand: the
`!capturing` key/array-start search (lines 276-301), falling through to
the scanning loop when capture begins or is already active. -/
def feedScan (p : PState) (buffer : List Char) : PState :=
  if buffer.isEmpty then { p with buffer := [] }
  else if !p.capturing then
    match findSub keyChars buffer with
    | none =>
      let b :=
        if keyChars.length < buffer.length then
          buffer.drop (buffer.length - keyChars.length)
        else buffer
      { p with buffer := b }
    | some ki =>
      match findCharFrom '[' buffer (ki + keyChars.length) with
      | none => { p with buffer := buffer.drop ki }
      | some ai =>
        let buf2 := buffer.drop (ai + 1)
        scanCap (buf2.length + 1)
          { p with historyFound := true, capturing := true, inString := false,
                   escapeNext := false, braceDepth := 0, objStart := none }
          buf2 0
  else scanCap (buffer.length + 1) p buffer 0

/-- `feed(chunk)` (lines 261-376).  After an `emitHistory` parse failure
the exception has propagated to the caller and the stream is abandoned;
this is modelled by making further feeds no-ops on a failed state. -/
def feed (p : PState) (chunk : List Char) : PState :=
  if p.failed then p
  else if chunk.isEmpty then p
  else if p.historyCompleted then
    { p with tailText := appendTail p.tailText chunk }
  else feedScan p (p.buffer ++ chunk)

/-- Feed a sequence of chunks, in order, into a fresh parser. -/
def runFeeds (chunks : List (List Char)) : PState :=
  chunks.foldl feed initPState

/-- Parsed (`JSON.parse`d) values delivered to the `onHistory` callback,
in emission order. -/
def emittedJson (p : PState) : List (Option Json) :=
  p.emitted.map (fun s => parseJson (String.mk s))

/-- The concrete payload of the specification's stream scenario. -/
def scenarioPayload : List Char :=
  ("\x7b\"result\":[\x7b\"ThermostatHistory\":[\x7b\"serialNo\":\"A1\",\"History\":[\x7b\"timestamp\":\"2025-08-30T00:00:00\"\x7d]\x7d,\x7b\"serialNo\":\"B2\",\"History\":[]\x7d]\x7d]\x7d").toList

/-- The three-piece split of the scenario payload used to exhibit the
chunk-boundary defect: cut at offsets 34 and 84, both strictly inside the
first array element. -/
def scenarioChunks : List (List Char) :=
  [scenarioPayload.take 34, (scenarioPayload.drop 34).take 50,
   scenarioPayload.drop 84]

/-- A candidate file holding exactly two records (for the pagination
counterexample). -/
def c2File : FileData :=
  FileData.arr [⟨"2025-01-01T00:00", "A", "", "", ""⟩,
                ⟨"2025-01-01T00:15", "A", "", "", ""⟩]

/-- Records sorted ascending by timestamp under the merge comparator. -/
abbrev RecsSorted (l : List HRecord) : Prop :=
  l.Pairwise (fun a b => tsLeB a b = true)

/-! # Theorems -/

/-! ## C10 : loadMetadata never fails -/

/-- C10: loading the metadata index never fails: when the index document
is absent or unreadable (the read threw, `readResult = none`) or its
content is not valid JSON, `loadMetadata` returns the fresh empty index
(`sites: {}`, `indexVersion "1.0"`, current `lastUpdated`) instead of
raising, so a corrupt index file is silently treated as empty; a
successful parse is returned as is. -/
theorem C10_loadMetadata_never_fails (now : String) (readResult : Option String) :
    (readResult = none → loadMetadata now readResult = emptyMetadataJson now)
    ∧ (∀ c, readResult = some c → parseJson c = none →
        loadMetadata now readResult = emptyMetadataJson now)
    ∧ (∀ c j, readResult = some c → parseJson c = some j →
        loadMetadata now readResult = j) := by
  refine ⟨?_, ?_, ?_⟩
  · intro h; subst h; rfl
  · intro c h hp; subst h; simp [loadMetadata, hp]
  · intro c j h hp; subst h; simp [loadMetadata, hp]

/-- Witness for C10 at a concrete corrupt index document. -/
theorem C10_loadMetadata_never_fails_witness :
    parseJson "\x7b not json" = none
    ∧ loadMetadata "2026-10-11T00:00:00.000Z" (some "\x7b not json")
        = emptyMetadataJson "2026-10-11T00:00:00.000Z" :=
  ⟨rfl,
    (C10_loadMetadata_never_fails "2026-10-11T00:00:00.000Z"
      (some "\x7b not json")).2.1 "\x7b not json" rfl rfl⟩

/-! ## C1 : stream extractor chunk-boundary invariance (code bug) -/

/-- C1 (code bug): the scenario payload fed as a single chunk emits both
records (serials A1 then B2) and sees the array close, but the same text
fed as the three `scenarioChunks` — whose concatenation is exactly the
payload, with both cut points inside the first array element — emits no
record at all and never completes: `feed` rescans the retained partial
object from index 0 while `inString`/`escapeNext`/`braceDepth` keep their
end-of-chunk values instead of being reset, so the scanning state is
applied twice and capture derails. -/
theorem C1_chunk_invariance_code_bug :
    (runFeeds [scenarioPayload]).failed = false
    ∧ (runFeeds [scenarioPayload]).historyCompleted = true
    ∧ (emittedJson (runFeeds [scenarioPayload])).map
        (fun j => j.bind (jStrField "serialNo")) = [some "A1", some "B2"]
    ∧ scenarioPayload.take 34 ++ ((scenarioPayload.drop 34).take 50
        ++ scenarioPayload.drop 84) = scenarioPayload
    ∧ (runFeeds scenarioChunks).emitted = []
    ∧ (runFeeds scenarioChunks).historyCompleted = false := by
  exact ⟨rfl, rfl, rfl, by decide, by decide, rfl⟩

/-! ## C2 : pagination hasMore -/

theorem qEntriesLoop_yielded (limit skipCount : Nat) :
    ∀ (es : List QRecord) (st : QState), st.yielded = st.results.length →
      (qEntriesLoop limit skipCount st es).yielded
        = (qEntriesLoop limit skipCount st es).results.length := by
  intro es
  induction es with
  | nil => intro st h; simpa [qEntriesLoop] using h
  | cons e es ih =>
    intro st h
    simp only [qEntriesLoop]
    split
    · exact ih _ h
    · split
      · exact h
      · exact ih _ (by simp [h])

theorem qFilesLoop_yielded (limit skipCount : Nat) :
    ∀ (fs : List FileData) (st : QState), st.yielded = st.results.length →
      (qFilesLoop limit skipCount st fs).yielded
        = (qFilesLoop limit skipCount st fs).results.length := by
  intro fs
  induction fs with
  | nil => intro st h; simpa [qFilesLoop] using h
  | cons f fs ih =>
    intro st h
    simp only [qFilesLoop]
    split
    · exact h
    · exact ih _ (qEntriesLoop_yielded limit skipCount _ st h)

/-- C2 (amended): `hasMore` is true exactly when the returned page holds
exactly `limit` records and the candidate file list is non-empty; it does
not check whether any further matching record actually remains. -/
theorem C2_hasMore_formula (files : List FileData) (page limit : Nat) :
    (queryFiles files page limit).hasMore
      = (decide ((queryFiles files page limit).data.length = limit)
          && !files.isEmpty) := by
  have h := qFilesLoop_yielded limit (page * limit) files ⟨[], 0, 0⟩ rfl
  simp only [queryFiles, h]
  rcases Nat.decEq (qFilesLoop limit (page * limit) ⟨[], 0, 0⟩ files).results.length limit with hne | heq
  · simp [Nat.beq_eq, hne]
  · simp [Nat.beq_eq, heq]

/-- C2 counterexample: one candidate file holding exactly two records,
page 0, pageSize 2: the page is exactly full, every matching record has
been returned (total = skip + returned), yet `hasMore` is `true` — the
claim requires it to be `false` when no further record remains. -/
theorem C2_hasMore_cx :
    (queryFiles [c2File] 0 2).hasMore = true
    ∧ (queryFiles [c2File] 0 2).data.length = 2
    ∧ totalEntriesOfFiles [c2File] = 0 * 2 + 2 := by
  exact ⟨rfl, rfl, rfl⟩

/-! ## C8 : dispatcher per-task timeout -/

theorem runQueueCoClient_index_spec (I : Nat) :
    ∀ (items : List (Nat × Nat)) (lastRun now k : Nat) (d : Dispatch),
      (runQueueCoClient I lastRun now items)[k]? = some d →
      d.timedOut = decide (10000 ≤ d.durMs)
      ∧ d.settledAt = d.dispatchedAt + min d.durMs 10000 := by
  intro items
  induction items with
  | nil => intro lastRun now k d h; simp [runQueueCoClient] at h
  | cons it rest ih =>
    intro lastRun now k d h
    rw [runQueueCoClient] at h
    match k, h with
    | 0, h =>
      simp only [List.getElem?_cons_zero, Option.some.injEq] at h
      subst h; exact ⟨rfl, rfl⟩
    | Nat.succ k, h =>
      simp only [List.getElem?_cons_succ] at h
      exact ih _ _ k d h

theorem runQueueCoClient_length (I : Nat) :
    ∀ (items : List (Nat × Nat)) (lastRun now : Nat),
      (runQueueCoClient I lastRun now items).length = items.length := by
  intro items
  induction items with
  | nil => intro lastRun now; rfl
  | cons it rest ih => intro lastRun now; simp [runQueueCoClient, ih]

/-- C8 (amended): in the server co-client dispatcher every dispatched
task is raced against the fixed 10-second timer: a submission whose task
runs longer than 10 s is rejected — a failure delivered to that caller —
exactly 10 s after its dispatch, and the drain still dispatches every
queued submission under the key (one dispatch per submission); the
campus-optimizer dispatcher variant applies no timeout. -/
theorem C8_coClient_timeout (I lastRun now : Nat) (items : List (Nat × Nat))
    (k : Nat) (d : Dispatch)
    (hk : (runQueueCoClient I lastRun now items)[k]? = some d)
    (hdur : 10000 < d.durMs) :
    d.timedOut = true
    ∧ d.settledAt = d.dispatchedAt + 10000
    ∧ (runQueueCoClient I lastRun now items).length = items.length := by
  obtain ⟨h1, h2⟩ := runQueueCoClient_index_spec I items lastRun now k d hk
  refine ⟨?_, ?_, runQueueCoClient_length I items lastRun now⟩
  · rw [h1]; exact decide_eq_true (by omega)
  · rw [h2]; congr 1; omega

/-- Witness for C8 at a concrete queue: a 20 s task under interval 100 ms
is dispatched at 100, rejected at 10100, and the following 5 ms task is
still dispatched. -/
theorem C8_coClient_timeout_witness :
    (runQueueCoClient 100 0 0 [(0, 20000), (1, 5)])[0]?
        = some ⟨0, 20000, 100, 10100, true⟩
    ∧ (10000 : Nat) < 20000
    ∧ ((⟨0, 20000, 100, 10100, true⟩ : Dispatch).timedOut = true
        ∧ (⟨0, 20000, 100, 10100, true⟩ : Dispatch).settledAt
            = (⟨0, 20000, 100, 10100, true⟩ : Dispatch).dispatchedAt + 10000
        ∧ (runQueueCoClient 100 0 0 [(0, 20000), (1, 5)]).length
            = ([(0, 20000), (1, 5)] : List (Nat × Nat)).length) :=
  ⟨rfl, by decide,
    C8_coClient_timeout 100 0 0 [(0, 20000), (1, 5)] 0 _ rfl (by decide)⟩

/-- C8 counterexample: the campus-optimizer `_runQueue` has no timeout —
a 20-second task is delivered to its caller as a success (no failure at
the 10 s mark, `timedOut = false`, settled at dispatch + 20000) and the
next queued task under the same key is not dispatched until the 20 s
task finishes. -/
theorem C8_no_timeout_cx :
    runQueueCoApi 100 0 0 [(0, 20000), (1, 5)]
      = [⟨0, 20000, 100, 20100, false⟩, ⟨1, 5, 20100, 20105, false⟩] := by
  decide

/-! ## C7 : rate limiter ordering, spacing, independence -/

theorem runQueueCoApi_fifo (I : Nat) :
    ∀ (items : List (Nat × Nat)) (lastRun now : Nat),
      (runQueueCoApi I lastRun now items).map (fun d => d.taskId)
        = items.map (fun it => it.1) := by
  intro items
  induction items with
  | nil => intro lastRun now; rfl
  | cons it rest ih => intro lastRun now; simp [runQueueCoApi, ih]

theorem runQueueCoClient_fifo (I : Nat) :
    ∀ (items : List (Nat × Nat)) (lastRun now : Nat),
      (runQueueCoClient I lastRun now items).map (fun d => d.taskId)
        = items.map (fun it => it.1) := by
  intro items
  induction items with
  | nil => intro lastRun now; rfl
  | cons it rest ih => intro lastRun now; simp [runQueueCoClient, ih]

theorem runQueueCoApi_disp_lower (I : Nat) :
    ∀ (items : List (Nat × Nat)) (lastRun now k : Nat) (d : Dispatch),
      (runQueueCoApi I lastRun now items)[k]? = some d →
      lastRun + (k + 1) * I ≤ d.dispatchedAt := by
  intro items
  induction items with
  | nil => intro lastRun now k d h; simp [runQueueCoApi] at h
  | cons it rest ih =>
    intro lastRun now k d h
    rw [runQueueCoApi] at h
    match k, h with
    | 0, h =>
      simp only [List.getElem?_cons_zero, Option.some.injEq] at h
      subst h
      show lastRun + 1 * I ≤ max now (lastRun + I)
      calc lastRun + 1 * I = lastRun + I := by ring
        _ ≤ max now (lastRun + I) := le_max_right _ _
    | Nat.succ k, h =>
      simp only [List.getElem?_cons_succ] at h
      have hrec := ih _ _ k d h
      calc lastRun + (k + 1 + 1) * I
            = (lastRun + I) + (k + 1) * I := by ring
        _ ≤ max now (lastRun + I) + (k + 1) * I :=
            Nat.add_le_add_right (le_max_right _ _) _
        _ ≤ d.dispatchedAt := hrec

theorem runQueueCoClient_disp_lower (I : Nat) :
    ∀ (items : List (Nat × Nat)) (lastRun now k : Nat) (d : Dispatch),
      (runQueueCoClient I lastRun now items)[k]? = some d →
      lastRun + (k + 1) * I ≤ d.dispatchedAt := by
  intro items
  induction items with
  | nil => intro lastRun now k d h; simp [runQueueCoClient] at h
  | cons it rest ih =>
    intro lastRun now k d h
    rw [runQueueCoClient] at h
    match k, h with
    | 0, h =>
      simp only [List.getElem?_cons_zero, Option.some.injEq] at h
      subst h
      show lastRun + 1 * I ≤ max now (lastRun + I)
      calc lastRun + 1 * I = lastRun + I := by ring
        _ ≤ max now (lastRun + I) := le_max_right _ _
    | Nat.succ k, h =>
      simp only [List.getElem?_cons_succ] at h
      have hrec := ih _ _ k d h
      calc lastRun + (k + 1 + 1) * I
            = (lastRun + I) + (k + 1) * I := by ring
        _ ≤ max now (lastRun + I) + (k + 1) * I :=
            Nat.add_le_add_right (le_max_right _ _) _
        _ ≤ d.dispatchedAt := hrec

theorem runQueueCoApi_spacing (I : Nat) (items : List (Nat × Nat))
    (lastRun now : Nat) (k : Nat) (d0 dk : Dispatch)
    (h0 : (runQueueCoApi I lastRun now items)[0]? = some d0)
    (hk : (runQueueCoApi I lastRun now items)[k]? = some dk) :
    d0.dispatchedAt + k * I ≤ dk.dispatchedAt := by
  match items, k with
  | [], _ => simp [runQueueCoApi] at h0
  | it :: rest, 0 =>
    rw [h0] at hk
    cases hk
    omega
  | it :: rest, Nat.succ k =>
    rw [runQueueCoApi] at h0 hk
    simp only [List.getElem?_cons_zero, Option.some.injEq] at h0
    simp only [List.getElem?_cons_succ] at hk
    have hrec := runQueueCoApi_disp_lower I rest _ _ k dk hk
    subst h0
    simpa using hrec

theorem runQueueCoClient_spacing (I : Nat) (items : List (Nat × Nat))
    (lastRun now : Nat) (k : Nat) (d0 dk : Dispatch)
    (h0 : (runQueueCoClient I lastRun now items)[0]? = some d0)
    (hk : (runQueueCoClient I lastRun now items)[k]? = some dk) :
    d0.dispatchedAt + k * I ≤ dk.dispatchedAt := by
  match items, k with
  | [], _ => simp [runQueueCoClient] at h0
  | it :: rest, 0 =>
    rw [h0] at hk
    cases hk
    omega
  | it :: rest, Nat.succ k =>
    rw [runQueueCoClient] at h0 hk
    simp only [List.getElem?_cons_zero, Option.some.injEq] at h0
    simp only [List.getElem?_cons_succ] at hk
    have hrec := runQueueCoClient_disp_lower I rest _ _ k dk hk
    subst h0
    simpa using hrec

theorem lookupAssoc_cons {α : Type} (k2 : String) (v2 : α)
    (rest : List (String × α)) (k : String) :
    lookupAssoc ((k2, v2) :: rest) k
      = if k2 = k then some v2 else lookupAssoc rest k := by
  unfold lookupAssoc
  by_cases h : k2 = k
  · rw [List.find?_cons_of_pos _ (by simp [h]), if_pos h]
    rfl
  · rw [List.find?_cons_of_neg _ (by simp [h]), if_neg h]

theorem lookupAssoc_addSubmission (key k : String) (item : Nat × Nat) :
    ∀ qs : List (String × List (Nat × Nat)),
      lookupAssoc (addSubmission k item qs) key
        = if k = key then some ((lookupAssoc qs key).getD [] ++ [item])
          else lookupAssoc qs key := by
  intro qs
  induction qs with
  | nil =>
    by_cases h : k = key
    · simp [addSubmission, lookupAssoc_cons, h, lookupAssoc]
    · simp [addSubmission, lookupAssoc_cons, h, lookupAssoc]
  | cons q rest ih =>
    obtain ⟨k2, v2⟩ := q
    simp only [addSubmission]
    by_cases h2 : k2 = k
    · rw [if_pos h2, lookupAssoc_cons, lookupAssoc_cons]
      subst h2
      by_cases hk : k2 = key
      · simp [hk]
      · simp [hk]
    · rw [if_neg h2, lookupAssoc_cons, ih, lookupAssoc_cons]
      by_cases hk : k2 = key
      · have hnk : ¬ k = key := fun hh => h2 ((hh.trans hk.symm).symm)
        simp [hk, hnk]
      · simp [hk]

theorem getLimiterQueues_proj (key : String) :
    ∀ (subs : List (String × Nat × Nat)) (qs : List (String × List (Nat × Nat))),
      (lookupAssoc (subs.foldl (fun acc s => addSubmission s.1 s.2 acc) qs) key).getD []
        = (lookupAssoc qs key).getD []
            ++ (subs.filter (fun s => decide (s.1 = key))).map (fun s => s.2) := by
  intro subs
  induction subs with
  | nil => intro qs; simp
  | cons sub rest ih =>
    intro qs
    obtain ⟨sk, sv⟩ := sub
    simp only [List.foldl_cons, ih]
    rw [lookupAssoc_addSubmission]
    by_cases h : sk = key
    · simp [h, List.filter_cons]
    · simp [h, List.filter_cons]

/-- C7: per-key ordering and spacing of the rate-limited dispatcher (both
variants of `_runQueue`): the dispatch sequence of a key's queue follows
the submission order task for task (FIFO); the k-th dispatch begins no
earlier than `k * I` after the first dispatch; and the routing of
`_enqueueWithRateLimit` is per-key independent — the queue drained for a
key is exactly the subsequence of submissions made under that key, in
submission order, unaffected by submissions under other keys. -/
theorem C7_rate_limiter_order_spacing (I lastRun now : Nat)
    (items : List (Nat × Nat)) :
    ((runQueueCoApi I lastRun now items).map (fun d => d.taskId)
        = items.map (fun it => it.1)
      ∧ (runQueueCoClient I lastRun now items).map (fun d => d.taskId)
        = items.map (fun it => it.1))
    ∧ (∀ (k : Nat) (d0 dk : Dispatch),
        (runQueueCoApi I lastRun now items)[0]? = some d0 →
        (runQueueCoApi I lastRun now items)[k]? = some dk →
        d0.dispatchedAt + k * I ≤ dk.dispatchedAt)
    ∧ (∀ (k : Nat) (d0 dk : Dispatch),
        (runQueueCoClient I lastRun now items)[0]? = some d0 →
        (runQueueCoClient I lastRun now items)[k]? = some dk →
        d0.dispatchedAt + k * I ≤ dk.dispatchedAt)
    ∧ (∀ (subs : List (String × Nat × Nat)) (key : String),
        (lookupAssoc (getLimiterQueues subs) key).getD []
          = (subs.filter (fun s => decide (s.1 = key))).map (fun s => s.2)) := by
  refine ⟨⟨runQueueCoApi_fifo I items lastRun now,
           runQueueCoClient_fifo I items lastRun now⟩,
    fun k d0 dk h0 hk => runQueueCoApi_spacing I items lastRun now k d0 dk h0 hk,
    fun k d0 dk h0 hk => runQueueCoClient_spacing I items lastRun now k d0 dk h0 hk,
    fun subs key => ?_⟩
  have h := getLimiterQueues_proj key subs []
  simpa [getLimiterQueues, lookupAssoc] using h

/-- Witness for C7 at a concrete queue: three tasks under one key at
interval 100 ms, with a slow middle task; the third dispatch starts at
least `2 * 100` after the first (concretely at 450 ≥ 100 + 200). -/
theorem C7_rate_limiter_order_spacing_witness :
    (runQueueCoApi 100 0 0 [(7, 5), (8, 250), (9, 0)])[0]?
        = some ⟨7, 5, 100, 105, false⟩
    ∧ (runQueueCoApi 100 0 0 [(7, 5), (8, 250), (9, 0)])[2]?
        = some ⟨9, 0, 450, 450, false⟩
    ∧ (⟨7, 5, 100, 105, false⟩ : Dispatch).dispatchedAt + 2 * 100
        ≤ (⟨9, 0, 450, 450, false⟩ : Dispatch).dispatchedAt :=
  ⟨by decide, by decide,
    (C7_rate_limiter_order_spacing 100 0 0 [(7, 5), (8, 250), (9, 0)]).2.1
      2 _ _ (by decide) (by decide)⟩

/-! ## C6 : metadata index consistency -/

theorem insertAssoc_mem {α : Type} (k : String) (v : α) :
    ∀ (l : List (String × α)) (p : String × α),
      p ∈ insertAssoc k v l → p = (k, v) ∨ p ∈ l := by
  intro l
  induction l with
  | nil => intro p hp; simp [insertAssoc] at hp; exact Or.inl hp
  | cons q rest ih =>
    intro p hp
    obtain ⟨k2, v2⟩ := q
    simp only [insertAssoc] at hp
    split at hp
    · rcases List.mem_cons.mp hp with h | h
      · exact Or.inl h
      · exact Or.inr (List.mem_cons_of_mem _ h)
    · rcases List.mem_cons.mp hp with h | h
      · exact Or.inr (h ▸ List.mem_cons_self _ _)
      · rcases ih p h with h2 | h2
        · exact Or.inl h2
        · exact Or.inr (List.mem_cons_of_mem _ h2)

theorem lookupAssoc_some_mem {α : Type} (k : String) (v : α) :
    ∀ l : List (String × α), lookupAssoc l k = some v → (k, v) ∈ l := by
  intro l
  induction l with
  | nil => intro h; simp [lookupAssoc] at h
  | cons q rest ih =>
    intro h
    obtain ⟨k2, v2⟩ := q
    rw [lookupAssoc_cons] at h
    by_cases hk : k2 = k
    · rw [if_pos hk] at h
      cases h
      subst hk
      exact List.mem_cons_self _ _
    · rw [if_neg hk] at h
      exact List.mem_cons_of_mem _ (ih h)

theorem updateMetadata_preserves (m : Metadata) (f : MetaFact)
    (h : MetaInv m) : MetaInv (updateMetadataForEntry m f) := by
  intro sp hsp dp hdp
  simp only [updateMetadataForEntry] at hsp
  rcases insertAssoc_mem _ _ _ _ hsp with hsp2 | hsp2
  · subst hsp2
    simp only at hdp
    rcases insertAssoc_mem _ _ _ _ hdp with hdp2 | hdp2
    · subst hdp2; rfl
    · rcases hsite : lookupAssoc m f.siteSlug with _ | site0
      · rw [hsite] at hdp2; simp at hdp2
      · rw [hsite] at hdp2
        simp only [Option.getD_some] at hdp2
        exact h _ (lookupAssoc_some_mem _ _ m hsite) dp hdp2
  · exact h sp hsp2 dp hdp

/-- C6: starting from the fresh empty index, after any sequence of
`updateMetadataForEntry` calls every device's `totalEntries` equals the
sum of the `entryCount`s of its `dateRanges`. -/
theorem C6_index_consistency (facts : List MetaFact) :
    MetaInv (facts.foldl updateMetadataForEntry []) := by
  have hstep : ∀ (fs : List MetaFact) (m : Metadata),
      MetaInv m → MetaInv (fs.foldl updateMetadataForEntry m) := by
    intro fs
    induction fs with
    | nil => intro m hm; simpa using hm
    | cons f fs ih =>
      intro m hm
      exact ih _ (updateMetadata_preserves m f hm)
  refine hstep facts [] ?_
  intro sp hsp
  simp at hsp

/-! ## C3 : range splitter coverage -/

theorem splitGo_past_end (cd e : Nat) :
    ∀ (fuel cursor : Nat), e < cursor → splitGo cd e fuel cursor = [] := by
  intro fuel cursor h
  cases fuel with
  | zero => rfl
  | succ fuel => simp [splitGo, Nat.not_le.mpr h]

theorem splitGo_chain (cd : Nat) (hcd : 1 ≤ cd) (e : Nat) :
    ∀ (fuel cursor : Nat), cursor % DAYMS = 0 → cursor ≤ e →
      e < cursor + fuel * DAYMS →
      spanChainOk cd cursor e (splitGo cd e fuel cursor) := by
  intro fuel
  induction fuel with
  | zero =>
    intro cursor hmod hle hfuel
    exfalso
    simp only [Nat.zero_mul] at hfuel
    omega
  | succ fuel ih =>
    intro cursor hmod hle hfuel
    rw [splitGo, if_pos hle]
    dsimp only
    have hD : DAYMS ≤ cd * DAYMS := by
      have := Nat.mul_le_mul_right DAYMS hcd
      simpa using this
    have hDval : DAYMS = 86400000 := rfl
    rcases le_or_lt e (cursor + cd * DAYMS - 1) with hA | hB
    · -- final span: the raw end reaches past `e`, the range end is clamped to `e`
      rw [Nat.min_eq_left hA]
      have hre1 : e ≤ endOfDayMs e := by
        unfold endOfDayMs DAYMS
        omega
      have hrangeEnd : (if e < endOfDayMs e then e else endOfDayMs e) = e := by
        rcases Nat.lt_or_ge e (endOfDayMs e) with hlt | hge
        · rw [if_pos hlt]
        · rw [if_neg (Nat.not_lt.mpr hge)]
          omega
      rw [hrangeEnd]
      have hnext : cursor < nextDayStartMs e := by
        unfold nextDayStartMs DAYMS
        unfold DAYMS at hmod
        omega
      rw [if_neg (Nat.not_le.mpr hnext)]
      rw [splitGo_past_end cd e fuel (nextDayStartMs e)
        (by unfold nextDayStartMs DAYMS; omega)]
      exact ⟨rfl, rfl, hle, by omega⟩
    · -- full-size span: the range end is the raw end, itself an end of day
      rw [Nat.min_eq_right (Nat.le_of_lt hB)]
      have hraw : endOfDayMs (cursor + cd * DAYMS - 1) = cursor + cd * DAYMS - 1 := by
        unfold endOfDayMs
        unfold DAYMS at hmod ⊢
        obtain ⟨q, hq⟩ := Nat.dvd_of_mod_eq_zero hmod
        have hc2 : cd * 86400000 = (cd - 1) * 86400000 + 86400000 := by
          cases cd with
          | zero => omega
          | succ n => simp [Nat.succ_mul]
        subst hq
        rw [hc2]
        omega
      rw [hraw]
      rw [if_neg (Nat.not_lt.mpr (Nat.le_of_lt hB))]
      have hnextEq :
          nextDayStartMs (cursor + cd * DAYMS - 1) = cursor + cd * DAYMS := by
        unfold nextDayStartMs
        unfold DAYMS at hmod ⊢
        obtain ⟨q, hq⟩ := Nat.dvd_of_mod_eq_zero hmod
        have hc2 : cd * 86400000 = (cd - 1) * 86400000 + 86400000 := by
          cases cd with
          | zero => omega
          | succ n => simp [Nat.succ_mul]
        subst hq
        rw [hc2]
        omega
      rw [hnextEq]
      have hcursorlt : cursor < cursor + cd * DAYMS := by omega
      rw [if_neg (Nat.not_le.mpr hcursorlt)]
      have hmod2 : (cursor + cd * DAYMS) % DAYMS = 0 := by
        unfold DAYMS at hmod ⊢
        omega
      have hle2 : cursor + cd * DAYMS ≤ e := by omega
      have hfuel2 : e < cursor + cd * DAYMS + fuel * DAYMS := by
        have hsm : (fuel + 1) * DAYMS = fuel * DAYMS + DAYMS := by ring
        omega
      have hrest := ih (cursor + cd * DAYMS) hmod2 hle2 hfuel2
      rcases hsplit : splitGo cd e fuel (cursor + cd * DAYMS) with _ | ⟨sp, rest⟩
      · rw [hsplit] at hrest
        exact (hrest : False).elim
      · rw [hsplit] at hrest
        have hkey : cursor + cd * DAYMS - 1 + 1 = cursor + cd * DAYMS := by omega
        exact ⟨rfl, by omega, by omega, hkey ▸ hrest⟩

/-- C3 (amended): for every start ≤ end with the start on a day boundary
and every maxDays with 1 ≤ maxDays ≤ 30, `splitDateRange` succeeds and
returns contiguous, non-overlapping sub-spans, each at most maxDays days
long, whose union as closed millisecond intervals is exactly
[start, end], the final sub-span's end clamped to the original end; in
particular the scenario 2025-01-01 .. 2025-03-06 (days 0 and 64 from
2025-01-01) with maxDays 30 yields exactly the three spans
[01-01, 01-30], [01-31, 03-01], [03-02, 03-06]. -/
theorem C3_splitDateRange_coverage :
    (∀ s e cd, s % DAYMS = 0 → s ≤ e → 1 ≤ cd → cd ≤ 30 →
      ∃ spans, splitDateRange s e cd = Except.ok spans ∧ spanChainOk cd s e spans)
    ∧ splitDateRange 0 (64 * DAYMS) 30
        = Except.ok [(0, 30 * DAYMS - 1), (30 * DAYMS, 60 * DAYMS - 1),
                     (60 * DAYMS, 64 * DAYMS)] := by
  constructor
  · intro s e cd hmod hse h1 h30
    refine ⟨splitGo cd e (e / DAYMS + 2) s, ?_, ?_⟩
    · unfold splitDateRange
      rw [if_neg (by omega), if_neg (by omega)]
    · refine splitGo_chain cd h1 e (e / DAYMS + 2) s hmod hse ?_
      unfold DAYMS
      omega
  · rfl

/-- Witness for C3 at the scenario instance. -/
theorem C3_splitDateRange_coverage_witness :
    (0 : Nat) % DAYMS = 0 ∧ (0 : Nat) ≤ 64 * DAYMS
    ∧ (1 : Nat) ≤ 30 ∧ (30 : Nat) ≤ 30
    ∧ ∃ spans, splitDateRange 0 (64 * DAYMS) 30 = Except.ok spans
        ∧ spanChainOk 30 0 (64 * DAYMS) spans :=
  ⟨rfl, by decide, by decide, by decide,
    C3_splitDateRange_coverage.1 0 (64 * DAYMS) 30 rfl (by decide)
      (by decide) (by decide)⟩

/-- C3 counterexample: the claim as stated quantifies over every
maxDays ≥ 1 and every start ≤ end, but (i) maxDays = 31 is rejected with
a thrown error rather than producing spans, and (ii) from a non-midnight
start (noon of day 0, to day 1 23:59:59.000) the single produced span is
normalized up to end-of-day and covers 1.5 days — longer than
maxDays = 1 day. -/
theorem C3_splitDateRange_cx :
    splitDateRange 0 DAYMS 31 = Except.error "chunkDays must be between 1 and 30"
    ∧ splitDateRange 43200000 172799000 1 = Except.ok [(43200000, 172799000)]
    ∧ 1 * DAYMS < 172799000 - 43200000 + 1 := by
  exact ⟨rfl, rfl, by decide⟩

/-! ## C4 : merge dedup is first-write-wins and sorted -/

theorem charsLe_total : ∀ a b : List Char, charsLe a b = true ∨ charsLe b a = true := by
  intro a
  induction a with
  | nil => intro b; exact Or.inl rfl
  | cons x xs ih =>
    intro b
    match b with
    | [] => exact Or.inr rfl
    | y :: ys =>
      simp only [charsLe]
      by_cases hxy : x = y
      · subst hxy
        simp only [if_pos rfl]
        exact ih ys
      · rw [if_neg hxy, if_neg (Ne.symm hxy)]
        rcases lt_or_gt_of_ne hxy with h | h
        · exact Or.inl (decide_eq_true h)
        · exact Or.inr (decide_eq_true h)

theorem charsLe_trans : ∀ a b c : List Char,
    charsLe a b = true → charsLe b c = true → charsLe a c = true := by
  intro a
  induction a with
  | nil => intro b c _ _; rfl
  | cons x xs ih =>
    intro b c hab hbc
    match b, c with
    | [], _ => simp [charsLe] at hab
    | y :: ys, [] => simp [charsLe] at hbc
    | y :: ys, z :: zs =>
      simp only [charsLe] at hab hbc ⊢
      by_cases hxy : x = y
      · subst hxy
        rw [if_pos rfl] at hab
        by_cases hyz : x = z
        · subst hyz
          rw [if_pos rfl] at hbc
          rw [if_pos rfl]
          exact ih ys zs hab hbc
        · rw [if_neg hyz] at hbc
          rw [if_neg hyz]
          exact hbc
      · rw [if_neg hxy] at hab
        have hxylt : x < y := of_decide_eq_true hab
        by_cases hyz : y = z
        · subst hyz
          rw [if_neg hxy]
          exact decide_eq_true hxylt
        · rw [if_neg hyz] at hbc
          have hyzlt : y < z := of_decide_eq_true hbc
          have hxzlt : x < z := lt_trans hxylt hyzlt
          rw [if_neg (ne_of_lt hxzlt)]
          exact decide_eq_true hxzlt

theorem tsLeB_total (a b : HRecord) : tsLeB a b = true ∨ tsLeB b a = true :=
  charsLe_total _ _

theorem tsLeB_trans (a b c : HRecord) :
    tsLeB a b = true → tsLeB b c = true → tsLeB a c = true :=
  fun h1 h2 => charsLe_trans _ _ _ h1 h2

theorem mem_insertRec (r x : HRecord) :
    ∀ l : List HRecord, x ∈ insertRec r l ↔ x = r ∨ x ∈ l := by
  intro l
  induction l with
  | nil => simp [insertRec]
  | cons y ys ih =>
    simp only [insertRec]
    split
    · simp only [List.mem_cons]
    · simp only [List.mem_cons, ih]
      tauto

theorem insertRec_sorted (r : HRecord) :
    ∀ l : List HRecord, RecsSorted l → RecsSorted (insertRec r l) := by
  intro l
  induction l with
  | nil => intro _; simp [insertRec]
  | cons y ys ih =>
    intro hl
    obtain ⟨hy, hys⟩ := List.pairwise_cons.mp hl
    simp only [insertRec]
    split
    next hr =>
      refine List.pairwise_cons.mpr ⟨?_, ?_⟩
      · intro z hz
        rcases List.mem_cons.mp hz with h | h
        · subst h; exact hr
        · exact tsLeB_trans r y z hr (hy z h)
      · exact List.pairwise_cons.mpr ⟨hy, hys⟩
    next hr =>
      refine List.pairwise_cons.mpr ⟨?_, ih hys⟩
      intro z hz
      rcases (mem_insertRec r z ys).mp hz with h | h
      · rw [h]
        rcases tsLeB_total y r with h2 | h2
        · exact h2
        · exact absurd h2 hr
      · exact hy z h

theorem sortRecs_sorted : ∀ l : List HRecord, RecsSorted (sortRecs l) := by
  intro l
  induction l with
  | nil => simp [sortRecs]
  | cons x xs ih => exact insertRec_sorted x (sortRecs xs) ih

theorem insertRec_perm (r : HRecord) :
    ∀ l : List HRecord, (insertRec r l).Perm (r :: l) := by
  intro l
  induction l with
  | nil => simp [insertRec]
  | cons y ys ih =>
    simp only [insertRec]
    split
    · exact List.Perm.refl _
    · exact (ih.cons y).trans (List.Perm.swap r y ys)

theorem sortRecs_perm : ∀ l : List HRecord, (sortRecs l).Perm l := by
  intro l
  induction l with
  | nil => exact List.Perm.refl _
  | cons x xs ih =>
    exact (insertRec_perm x (sortRecs xs)).trans (ih.cons x)

theorem mem_sortRecs (x : HRecord) (l : List HRecord) :
    x ∈ sortRecs l ↔ x ∈ l :=
  (sortRecs_perm l).mem_iff

theorem sortRecs_eq_of_sorted : ∀ l : List HRecord, RecsSorted l → sortRecs l = l := by
  intro l
  induction l with
  | nil => intro _; rfl
  | cons x xs ih =>
    intro h
    obtain ⟨hx, hxs⟩ := List.pairwise_cons.mp h
    show insertRec x (sortRecs xs) = x :: xs
    rw [ih hxs]
    cases xs with
    | nil => rfl
    | cons y ys =>
      simp only [insertRec]
      rw [if_pos (hx y (List.mem_cons_self _ _))]

theorem mem_dedupRecs : ∀ (l : List HRecord) (seen : List String) (x : HRecord),
    x ∈ dedupRecs l seen → x ∈ l := by
  intro l
  induction l with
  | nil => intro seen x h; simp [dedupRecs] at h
  | cons r rs ih =>
    intro seen x h
    rw [dedupRecs] at h
    split at h
    · rcases List.mem_cons.mp h with h2 | h2
      · exact h2 ▸ List.mem_cons_self _ _
      · exact List.mem_cons_of_mem _ (ih _ x h2)
    · exact List.mem_cons_of_mem _ (ih _ x h)

theorem dedupRecs_ts : ∀ (l : List HRecord) (seen : List String) (x : HRecord),
    x ∈ dedupRecs l seen → x.timestamp ≠ "" ∧ x.timestamp ∉ seen := by
  intro l
  induction l with
  | nil => intro seen x h; simp [dedupRecs] at h
  | cons r rs ih =>
    intro seen x h
    rw [dedupRecs] at h
    split at h
    next hcond =>
      rcases List.mem_cons.mp h with h2 | h2
      · subst h2; exact hcond
      · have h3 := ih _ x h2
        refine ⟨h3.1, ?_⟩
        intro hmem
        exact h3.2 (List.mem_cons_of_mem _ hmem)
    next hcond => exact ih _ x h

theorem dedupRecs_keys_pairwise : ∀ (l : List HRecord) (seen : List String),
    (dedupRecs l seen).Pairwise (fun a b => a.timestamp ≠ b.timestamp) := by
  intro l
  induction l with
  | nil => intro seen; simp [dedupRecs]
  | cons r rs ih =>
    intro seen
    rw [dedupRecs]
    split
    · rw [List.pairwise_cons]
      refine ⟨?_, ih _⟩
      intro x hx heq
      have h2 := (dedupRecs_ts rs (r.timestamp :: seen) x hx).2
      apply h2
      rw [← heq]
      exact List.mem_cons_self _ _
    · exact ih _

theorem dedupRecs_first_wins :
    ∀ (l : List HRecord) (seen : List String) (t : String) (r : HRecord),
      t ≠ "" → t ∉ seen →
      l.find? (fun x => decide (x.timestamp = t)) = some r →
      r ∈ dedupRecs l seen
      ∧ ∀ x ∈ dedupRecs l seen, x.timestamp = t → x = r := by
  intro l
  induction l with
  | nil => intro seen t r _ _ hf; simp at hf
  | cons y ys ih =>
    intro seen t r ht hts hf
    by_cases hy : y.timestamp = t
    · rw [List.find?_cons_of_pos _ (by simp [hy])] at hf
      have hyr : y = r := by cases hf; rfl
      subst hyr
      rw [dedupRecs, if_pos ⟨by rw [hy]; exact ht, by rw [hy]; exact hts⟩]
      constructor
      · exact List.mem_cons_self _ _
      · intro x hx hxt
        rcases List.mem_cons.mp hx with h2 | h2
        · exact h2
        · exfalso
          have h3 := (dedupRecs_ts ys (y.timestamp :: seen) x h2).2
          apply h3
          rw [hxt, ← hy]
          exact List.mem_cons_self _ _
    · rw [List.find?_cons_of_neg _ (by simp [hy])] at hf
      rw [dedupRecs]
      split
      next hcond =>
        have hts2 : t ∉ y.timestamp :: seen := by
          intro hmem
          rcases List.mem_cons.mp hmem with h2 | h2
          · exact hy h2.symm
          · exact hts h2
        obtain ⟨hmem, huniq⟩ := ih _ t r ht hts2 hf
        refine ⟨List.mem_cons_of_mem _ hmem, ?_⟩
        intro x hx hxt
        rcases List.mem_cons.mp hx with h2 | h2
        · exfalso; apply hy; rw [← h2]; exact hxt
        · exact huniq x h2 hxt
      next hcond =>
        exact ih _ t r ht hts hf

theorem dedupRecs_covers :
    ∀ (l : List HRecord) (seen : List String) (t : String),
      t ≠ "" → t ∉ seen → (∃ x ∈ l, x.timestamp = t) →
      ∃ x ∈ dedupRecs l seen, x.timestamp = t := by
  intro l
  induction l with
  | nil => intro seen t _ _ h; simp at h
  | cons y ys ih =>
    intro seen t ht hts hex
    rw [dedupRecs]
    by_cases hy : y.timestamp = t
    · rw [if_pos ⟨by rw [hy]; exact ht, by rw [hy]; exact hts⟩]
      exact ⟨y, List.mem_cons_self _ _, hy⟩
    · obtain ⟨x, hx, hxt⟩ := hex
      rcases List.mem_cons.mp hx with h2 | h2
      · exfalso; apply hy; rw [← h2]; exact hxt
      · split
        next hcond =>
          have hts2 : t ∉ y.timestamp :: seen := by
            intro hmem
            rcases List.mem_cons.mp hmem with h3 | h3
            · exact hy h3.symm
            · exact hts h3
          obtain ⟨z, hz, hzt⟩ := ih _ t ht hts2 ⟨x, h2, hxt⟩
          exact ⟨z, List.mem_cons_of_mem _ hz, hzt⟩
        next hcond =>
          exact ih _ t ht hts ⟨x, h2, hxt⟩

theorem dedupRecs_eq_self :
    ∀ (l : List HRecord) (seen : List String),
      (∀ x ∈ l, x.timestamp ≠ "" ∧ x.timestamp ∉ seen) →
      l.Pairwise (fun a b => a.timestamp ≠ b.timestamp) →
      dedupRecs l seen = l := by
  intro l
  induction l with
  | nil => intro seen _ _; rfl
  | cons y ys ih =>
    intro seen hall hpw
    rw [List.pairwise_cons] at hpw
    rw [dedupRecs, if_pos (hall y (List.mem_cons_self _ _))]
    congr 1
    refine ih _ ?_ hpw.2
    intro x hx
    have h1 := hall x (List.mem_cons_of_mem _ hx)
    refine ⟨h1.1, ?_⟩
    intro hmem
    rcases List.mem_cons.mp hmem with h2 | h2
    · exact hpw.1 x hx h2.symm
    · exact h1.2 h2

theorem dedupRecs_all_dropped :
    ∀ (extra : List HRecord) (seen : List String),
      (∀ x ∈ extra, x.timestamp = "" ∨ x.timestamp ∈ seen) →
      dedupRecs extra seen = [] := by
  intro extra
  induction extra with
  | nil => intro seen _; rfl
  | cons x xs ih =>
    intro seen hall
    rw [dedupRecs, if_neg ?_]
    · exact ih seen (fun z hz => hall z (List.mem_cons_of_mem _ hz))
    · rcases hall x (List.mem_cons_self _ _) with h | h
      · intro hc; exact hc.1 h
      · intro hc; exact hc.2 h

theorem dedupRecs_append_absorb :
    ∀ (l extra : List HRecord) (seen : List String),
      (∀ x ∈ extra, x.timestamp = "" ∨ x.timestamp ∈ seen
        ∨ ∃ y ∈ dedupRecs l seen, y.timestamp = x.timestamp) →
      dedupRecs (l ++ extra) seen = dedupRecs l seen := by
  intro l
  induction l with
  | nil =>
    intro extra seen hcond
    simp only [List.nil_append]
    rw [show dedupRecs ([] : List HRecord) seen = [] from rfl]
    refine dedupRecs_all_dropped extra seen ?_
    intro x hx
    rcases hcond x hx with h | h | ⟨y, hy, _⟩
    · exact Or.inl h
    · exact Or.inr h
    · rw [show dedupRecs ([] : List HRecord) seen = [] from rfl] at hy
      simp at hy
  | cons y ys ih =>
    intro extra seen hcond
    rw [List.cons_append, dedupRecs, dedupRecs]
    split
    next hc =>
      congr 1
      refine ih extra _ ?_
      intro x hx
      rcases hcond x hx with h | h | ⟨z, hz, hzt⟩
      · exact Or.inl h
      · exact Or.inr (Or.inl (List.mem_cons_of_mem _ h))
      · rw [dedupRecs, if_pos hc] at hz
        rcases List.mem_cons.mp hz with h2 | h2
        · subst h2
          refine Or.inr (Or.inl ?_)
          rw [← hzt]
          exact List.mem_cons_self _ _
        · exact Or.inr (Or.inr ⟨z, h2, hzt⟩)
    next hc =>
      refine ih extra seen ?_
      intro x hx
      rcases hcond x hx with h | h | ⟨z, hz, hzt⟩
      · exact Or.inl h
      · exact Or.inr (Or.inl h)
      · rw [dedupRecs, if_neg hc] at hz
        exact Or.inr (Or.inr ⟨z, hz, hzt⟩)

theorem find?_append_left (p : HRecord → Bool) :
    ∀ (l1 l2 : List HRecord) (r : HRecord),
      l1.find? p = some r → (l1 ++ l2).find? p = some r := by
  intro l1
  induction l1 with
  | nil => intro l2 r h; simp at h
  | cons y ys ih =>
    intro l2 r h
    by_cases hy : p y = true
    · rw [List.find?_cons_of_pos _ hy] at h
      rw [List.cons_append, List.find?_cons_of_pos _ hy]
      exact h
    · rw [List.find?_cons_of_neg _ (by simpa using hy)] at h
      rw [List.cons_append, List.find?_cons_of_neg _ (by simpa using hy)]
      exact ih l2 r h

/-- C4: the partition merge is first-write-wins and sorted: the merged
partition is sorted ascending by timestamp, and for every timestamp
already present in the existing content, the merged partition contains
exactly the existing (first-seen) record for that timestamp — a later
record with the same timestamp never overwrites it. -/
theorem C4_dedup_first_write_wins (existing incoming : List HRecord) :
    RecsSorted (mergeRecords existing incoming)
    ∧ ∀ t r, t ≠ "" →
        existing.find? (fun x => decide (x.timestamp = t)) = some r →
        r ∈ mergeRecords existing incoming
        ∧ ∀ x ∈ mergeRecords existing incoming, x.timestamp = t → x = r := by
  constructor
  · exact sortRecs_sorted _
  · intro t r ht hf
    have hf2 : (existing ++ incoming).find? (fun x => decide (x.timestamp = t))
        = some r := find?_append_left _ existing incoming r hf
    have h := dedupRecs_first_wins (existing ++ incoming) [] t r ht (by simp) hf2
    constructor
    · exact (mem_sortRecs r _).mpr h.1
    · intro x hx hxt
      exact h.2 x ((mem_sortRecs x _).mp hx) hxt

/-- Witness for C4: batch B repeats the timestamp of A's record with a
different payload; the merged partition keeps A's record. -/
theorem C4_dedup_first_write_wins_witness :
    ("2025-01-01T00:05" : String) ≠ ""
    ∧ ([(⟨"2025-01-01T00:05", "old"⟩ : HRecord)].find?
        (fun x => decide (x.timestamp = "2025-01-01T00:05")))
        = some ⟨"2025-01-01T00:05", "old"⟩
    ∧ (⟨"2025-01-01T00:05", "old"⟩ : HRecord)
        ∈ mergeRecords [⟨"2025-01-01T00:05", "old"⟩]
            [⟨"2025-01-01T00:05", "new"⟩, ⟨"2025-01-01T00:01", "w"⟩] :=
  ⟨by decide, by decide,
    ((C4_dedup_first_write_wins [⟨"2025-01-01T00:05", "old"⟩]
        [⟨"2025-01-01T00:05", "new"⟩, ⟨"2025-01-01T00:01", "w"⟩]).2
      "2025-01-01T00:05" ⟨"2025-01-01T00:05", "old"⟩
      (by decide) (by decide)).1⟩

/-! ## C5 : merge-write idempotence -/

theorem mergeRecords_idem (ex b : List HRecord) :
    mergeRecords (mergeRecords ex b) b = mergeRecords ex b := by
  show sortRecs (dedupRecs (sortRecs (dedupRecs (ex ++ b) []) ++ b) [])
      = sortRecs (dedupRecs (ex ++ b) [])
  have hperm : (sortRecs (dedupRecs (ex ++ b) [])).Perm (dedupRecs (ex ++ b) []) :=
    sortRecs_perm _
  have hall : ∀ x ∈ sortRecs (dedupRecs (ex ++ b) []),
      x.timestamp ≠ "" ∧ x.timestamp ∉ ([] : List String) := by
    intro x hx
    have hxd : x ∈ dedupRecs (ex ++ b) [] := hperm.mem_iff.mp hx
    exact ⟨(dedupRecs_ts _ _ x hxd).1, by simp⟩
  have hpw : (sortRecs (dedupRecs (ex ++ b) [])).Pairwise
      (fun a b2 => a.timestamp ≠ b2.timestamp) := by
    exact (hperm.pairwise_iff (fun h => Ne.symm h)).mpr
      (dedupRecs_keys_pairwise (ex ++ b) [])
  have hdm : dedupRecs (sortRecs (dedupRecs (ex ++ b) [])) [] =
      sortRecs (dedupRecs (ex ++ b) []) :=
    dedupRecs_eq_self _ [] hall hpw
  have habs : dedupRecs (sortRecs (dedupRecs (ex ++ b) []) ++ b) []
      = dedupRecs (sortRecs (dedupRecs (ex ++ b) [])) [] := by
    refine dedupRecs_append_absorb _ b [] ?_
    intro x hx
    by_cases hxt : x.timestamp = ""
    · exact Or.inl hxt
    · refine Or.inr (Or.inr ?_)
      rw [hdm]
      have hcov := dedupRecs_covers (ex ++ b) [] x.timestamp hxt (by simp)
        ⟨x, List.mem_append_right ex hx, rfl⟩
      obtain ⟨y, hy, hyt⟩ := hcov
      exact ⟨y, hperm.mem_iff.mpr hy, hyt⟩
  rw [habs, hdm]
  exact sortRecs_eq_of_sorted _ (sortRecs_sorted _)

theorem lookupStore_cons (k2 : String × String) (v2 : List HRecord)
    (rest : Store) (k : String × String) :
    lookupStore ((k2, v2) :: rest) k
      = if k2 = k then some v2 else lookupStore rest k := by
  unfold lookupStore
  by_cases h : k2 = k
  · rw [List.find?_cons_of_pos _ (by simp [h]), if_pos h]
    rfl
  · rw [List.find?_cons_of_neg _ (by simp [h]), if_neg h]

theorem lookupStore_insert_self (k : String × String) (v : List HRecord) :
    ∀ st : Store, lookupStore (insertStore k v st) k = some v := by
  intro st
  induction st with
  | nil => rw [insertStore, lookupStore_cons, if_pos rfl]
  | cons p rest ih =>
    obtain ⟨k2, v2⟩ := p
    rw [insertStore]
    split
    next h => rw [lookupStore_cons, if_pos rfl]
    next h => rw [lookupStore_cons, if_neg h, ih]

theorem lookupStore_insert_ne (k k2 : String × String) (v : List HRecord)
    (hne : k2 ≠ k) :
    ∀ st : Store, lookupStore (insertStore k v st) k2 = lookupStore st k2 := by
  intro st
  induction st with
  | nil =>
    rw [insertStore, lookupStore_cons, if_neg (fun h => hne h.symm)]
  | cons p rest ih =>
    obtain ⟨k3, v3⟩ := p
    rw [insertStore]
    split
    next h =>
      subst h
      rw [lookupStore_cons, lookupStore_cons, if_neg (fun h2 => hne h2.symm),
          if_neg (fun h2 => hne h2.symm)]
    next h =>
      rw [lookupStore_cons, lookupStore_cons, ih]

theorem insertStore_lookup_id (k : String × String) (v : List HRecord) :
    ∀ st : Store, lookupStore st k = some v → insertStore k v st = st := by
  intro st
  induction st with
  | nil => intro h; simp [lookupStore] at h
  | cons p rest ih =>
    intro h
    obtain ⟨k2, v2⟩ := p
    rw [lookupStore_cons] at h
    rw [insertStore]
    by_cases hk : k2 = k
    · rw [if_pos hk] at h
      cases h
      rw [if_pos hk, hk]
    · rw [if_neg hk] at h
      rw [if_neg hk, ih h]

theorem writeGroups_facts_acc (siteSlug serialNo serialSeg : String) :
    ∀ (gs : List (String × List HRecord)) (st : Store) (fs : List WriteFact),
      writeGroups siteSlug serialNo serialSeg gs st fs
        = ((writeGroups siteSlug serialNo serialSeg gs st []).1,
           fs ++ (writeGroups siteSlug serialNo serialSeg gs st []).2) := by
  intro gs
  induction gs with
  | nil => intro st fs; simp [writeGroups]
  | cons g rest ih =>
    intro st fs
    obtain ⟨date, recs⟩ := g
    rw [writeGroups, writeGroups]
    rw [ih _ (fs ++ [_]), ih _ ([] ++ [_])]
    simp

theorem writeGroups_lookup_not_mem (siteSlug serialNo serialSeg : String)
    (k : String × String) :
    ∀ (gs : List (String × List HRecord)) (st : Store) (fs : List WriteFact),
      (∀ g ∈ gs, ((serialSeg, g.1) : String × String) ≠ k) →
      lookupStore (writeGroups siteSlug serialNo serialSeg gs st fs).1 k
        = lookupStore st k := by
  intro gs
  induction gs with
  | nil => intro st fs _; rfl
  | cons g rest ih =>
    intro st fs hne
    obtain ⟨date, recs⟩ := g
    rw [writeGroups]
    rw [ih _ _ (fun g2 hg2 => hne g2 (List.mem_cons_of_mem _ hg2))]
    exact lookupStore_insert_ne (serialSeg, date) k _
      (Ne.symm (hne (date, recs) (List.mem_cons_self _ _))) st


theorem mem_keys_addToGroup (d : String) (r : HRecord) :
    ∀ (gs : List (String × List HRecord)) (p : String × List HRecord),
      p ∈ addToGroup d r gs → p.1 = d ∨ p.1 ∈ gs.map Prod.fst := by
  intro gs
  induction gs with
  | nil =>
    intro p hp
    simp only [addToGroup, List.mem_singleton] at hp
    subst hp
    exact Or.inl rfl
  | cons g rest ih =>
    intro p hp
    obtain ⟨d2, rs⟩ := g
    rw [addToGroup] at hp
    split at hp
    · rcases List.mem_cons.mp hp with h | h
      · subst h; simp
      · simp only [List.map_cons, List.mem_cons]
        exact Or.inr (Or.inr (List.mem_map.mpr ⟨p, h, rfl⟩))
    · rcases List.mem_cons.mp hp with h | h
      · subst h; simp
      · rcases ih p h with h2 | h2
        · exact Or.inl h2
        · simp only [List.map_cons, List.mem_cons]
          exact Or.inr (Or.inr h2)

theorem addToGroup_pairwise (d : String) (r : HRecord) :
    ∀ gs : List (String × List HRecord),
      gs.Pairwise (fun a b => a.1 ≠ b.1) →
      (addToGroup d r gs).Pairwise (fun a b => a.1 ≠ b.1) := by
  intro gs
  induction gs with
  | nil => intro _; simp [addToGroup]
  | cons g rest ih =>
    intro hpw
    obtain ⟨d2, rs⟩ := g
    obtain ⟨hhead, htail⟩ := List.pairwise_cons.mp hpw
    rw [addToGroup]
    split
    next h =>
      exact List.pairwise_cons.mpr ⟨hhead, htail⟩
    next h =>
      refine List.pairwise_cons.mpr ⟨?_, ih htail⟩
      intro b hb
      rcases mem_keys_addToGroup d r rest b hb with h2 | h2
      · rw [h2]; exact h
      · obtain ⟨q, hq, hq2⟩ := List.mem_map.mp h2
        rw [← hq2]
        exact hhead q hq

theorem groupByDate_pairwise (records : List HRecord) :
    (groupByDate records).Pairwise (fun a b => a.1 ≠ b.1) := by
  suffices h : ∀ (rs : List HRecord) (gs : List (String × List HRecord)),
      gs.Pairwise (fun a b => a.1 ≠ b.1) →
      (rs.foldl groupStep gs).Pairwise (fun a b => a.1 ≠ b.1) by
    exact h records [] (by simp)
  intro rs
  induction rs with
  | nil => intro gs h; simpa using h
  | cons r rest ih =>
    intro gs h
    simp only [List.foldl_cons]
    refine ih _ ?_
    rw [groupStep]
    rcases hex : extractDateFromTimestamp r.timestamp with _ | d
    · exact h
    · exact addToGroup_pairwise d r gs h

theorem writeGroups_refold (siteSlug serialNo serialSeg : String) :
    ∀ (gs : List (String × List HRecord)) (st : Store),
      gs.Pairwise (fun a b => a.1 ≠ b.1) →
      writeGroups siteSlug serialNo serialSeg gs
          (writeGroups siteSlug serialNo serialSeg gs st []).1 []
        = writeGroups siteSlug serialNo serialSeg gs st [] := by
  intro gs
  induction gs with
  | nil => intro st _; rfl
  | cons g rest ih =>
    intro st hpw
    obtain ⟨date, recs⟩ := g
    obtain ⟨hhead, htail⟩ := List.pairwise_cons.mp hpw
    have hkeyne : ∀ g2 ∈ rest,
        ((serialSeg, g2.1) : String × String) ≠ (serialSeg, date) := by
      intro g2 hg2 heq
      exact hhead g2 hg2 (congrArg Prod.snd heq).symm
    have hfirst :
        writeGroups siteSlug serialNo serialSeg ((date, recs) :: rest) st []
          = ((writeGroups siteSlug serialNo serialSeg rest
                (insertStore (serialSeg, date)
                  (mergeRecords ((lookupStore st (serialSeg, date)).getD []) recs) st) []).1,
             (⟨siteSlug, serialNo, date,
                (mergeRecords ((lookupStore st (serialSeg, date)).getD []) recs).length⟩ : WriteFact)
               :: (writeGroups siteSlug serialNo serialSeg rest
                (insertStore (serialSeg, date)
                  (mergeRecords ((lookupStore st (serialSeg, date)).getD []) recs) st) []).2) := by
      rw [writeGroups, writeGroups_facts_acc]
      simp
    have hlook : lookupStore
        (writeGroups siteSlug serialNo serialSeg rest
          (insertStore (serialSeg, date)
            (mergeRecords ((lookupStore st (serialSeg, date)).getD []) recs) st) []).1
        (serialSeg, date)
        = some (mergeRecords ((lookupStore st (serialSeg, date)).getD []) recs) := by
      rw [writeGroups_lookup_not_mem _ _ _ _ rest _ [] hkeyne, lookupStore_insert_self]
    rw [hfirst]
    conv_lhs => rw [writeGroups]
    dsimp only
    rw [hlook]
    simp only [Option.getD_some]
    rw [mergeRecords_idem, insertStore_lookup_id _ _ _ hlook,
        writeGroups_facts_acc, ih _ htail]
    simp

/-- C5: re-writing the same entry (batch of records, grouped per (device,
date) partition) a second time leaves every partition's file content and
every reported entryCount unchanged: the second write returns exactly the
first write's store and facts. -/
theorem C5_write_idempotent (siteSlug : String) (st : Store) (e : HEntry) :
    writeThermostatHistoryByDate siteSlug
        (writeThermostatHistoryByDate siteSlug st e).1 e
      = writeThermostatHistoryByDate siteSlug st e := by
  by_cases hs : e.serialNo = ""
  · simp [writeThermostatHistoryByDate, hs]
  · by_cases hh : e.History = []
    · simp [writeThermostatHistoryByDate, hs, hh]
    · simp only [writeThermostatHistoryByDate, hs, hh, if_false, ite_false]
      have hpw : (groupByDate e.History).Pairwise (fun a b => a.1 ≠ b.1) :=
        groupByDate_pairwise e.History
      have hre := writeGroups_refold siteSlug e.serialNo
        (sanitizeFileSegment e.serialNo "unknown") (groupByDate e.History) st hpw
      simp only [hre]

/-! ## C9 : the writer silently drops dateless records and skips
invalid entries -/

theorem groupByDate_filter (records : List HRecord) :
    groupByDate records
      = groupByDate (records.filter
          (fun r => (extractDateFromTimestamp r.timestamp).isSome)) := by
  suffices h : ∀ (rs : List HRecord) (gs : List (String × List HRecord)),
      rs.foldl groupStep gs
        = (rs.filter (fun r => (extractDateFromTimestamp r.timestamp).isSome)).foldl
            groupStep gs by
    exact h records []
  intro rs
  induction rs with
  | nil => intro gs; rfl
  | cons r rest ih =>
    intro gs
    rw [List.foldl_cons, List.filter_cons]
    rcases hex : extractDateFromTimestamp r.timestamp with _ | d
    · have hcond : ¬ ((none : Option String).isSome = true) := by simp
      rw [if_neg hcond]
      have hstep : groupStep gs r = gs := by rw [groupStep, hex]
      rw [hstep]
      exact ih gs
    · have hcond : ((some d : Option String).isSome = true) := rfl
      rw [if_pos hcond, List.foldl_cons]
      exact ih (groupStep gs r)

theorem addToGroup_content (d : String) (r : HRecord) :
    ∀ (gs : List (String × List HRecord)) (g : String × List HRecord)
      (x : HRecord), g ∈ addToGroup d r gs → x ∈ g.2 →
      x = r ∨ ∃ g2 ∈ gs, x ∈ g2.2 := by
  intro gs
  induction gs with
  | nil =>
    intro g x hg hx
    simp only [addToGroup, List.mem_singleton] at hg
    subst hg
    simp only [List.mem_singleton] at hx
    exact Or.inl hx
  | cons p rest ih =>
    intro g x hg hx
    obtain ⟨d2, rs⟩ := p
    rw [addToGroup] at hg
    split at hg
    · rcases List.mem_cons.mp hg with h | h
      · subst h
        simp only at hx
        rcases List.mem_append.mp hx with h2 | h2
        · exact Or.inr ⟨(d2, rs), List.mem_cons_self _ _, h2⟩
        · simp only [List.mem_singleton] at h2
          exact Or.inl h2
      · exact Or.inr ⟨g, List.mem_cons_of_mem _ h, hx⟩
    · rcases List.mem_cons.mp hg with h | h
      · subst h
        exact Or.inr ⟨(d2, rs), List.mem_cons_self _ _, hx⟩
      · rcases ih g x h hx with h2 | ⟨g2, hg2, hxg2⟩
        · exact Or.inl h2
        · exact Or.inr ⟨g2, List.mem_cons_of_mem _ hg2, hxg2⟩

theorem groupByDate_mem_valid (records : List HRecord) :
    ∀ (g : String × List HRecord) (x : HRecord),
      g ∈ groupByDate records → x ∈ g.2 →
      (extractDateFromTimestamp x.timestamp).isSome = true := by
  suffices h : ∀ (rs : List HRecord) (gs : List (String × List HRecord)),
      (∀ g ∈ gs, ∀ x ∈ g.2, (extractDateFromTimestamp x.timestamp).isSome = true) →
      ∀ g ∈ rs.foldl groupStep gs, ∀ x ∈ g.2,
        (extractDateFromTimestamp x.timestamp).isSome = true by
    intro g x hg hx
    exact h records [] (by simp) g hg x hx
  intro rs
  induction rs with
  | nil => intro gs hgs; simpa using hgs
  | cons r rest ih =>
    intro gs hgs
    rw [List.foldl_cons]
    refine ih _ ?_
    rw [groupStep]
    rcases hex : extractDateFromTimestamp r.timestamp with _ | d
    · exact hgs
    · intro g hg x hx
      rcases addToGroup_content d r gs g x hg hx with h | ⟨g2, hg2, hxg2⟩
      · rw [h, hex]; rfl
      · exact hgs g2 hg2 x hxg2

theorem mem_mergeRecords (a b : List HRecord) (x : HRecord) :
    x ∈ mergeRecords a b → x ∈ a ∨ x ∈ b := by
  intro hx
  have h1 : x ∈ dedupRecs (a ++ b) [] := (mem_sortRecs x _).mp hx
  have h2 : x ∈ a ++ b := mem_dedupRecs _ _ x h1
  exact List.mem_append.mp h2

theorem writeGroups_mem_source (siteSlug serialNo serialSeg : String) :
    ∀ (gs : List (String × List HRecord)) (st : Store) (fs : List WriteFact)
      (k : String × String) (x : HRecord),
      x ∈ (lookupStore (writeGroups siteSlug serialNo serialSeg gs st fs).1 k).getD [] →
      x ∈ (lookupStore st k).getD [] ∨ ∃ g ∈ gs, x ∈ g.2 := by
  intro gs
  induction gs with
  | nil => intro st fs k x hx; exact Or.inl hx
  | cons g rest ih =>
    intro st fs k x hx
    obtain ⟨date, recs⟩ := g
    rw [writeGroups] at hx
    rcases ih _ _ k x hx with h | ⟨g2, hg2, hxg⟩
    · by_cases hk : ((serialSeg, date) : String × String) = k
      · subst hk
        rw [lookupStore_insert_self] at h
        simp only [Option.getD_some] at h
        rcases mem_mergeRecords _ _ x h with h2 | h2
        · exact Or.inl h2
        · exact Or.inr ⟨(date, recs), List.mem_cons_self _ _, h2⟩
      · rw [lookupStore_insert_ne _ k _ (fun hh => hk hh.symm) st] at h
        exact Or.inl h
    · exact Or.inr ⟨g2, List.mem_cons_of_mem _ hg2, hxg⟩

/-- C9: the writer persists only records whose timestamp has an
extractable date prefix, and skips invalid entries entirely: an entry
with a falsy serialNo or an empty History produces no write and no
fact; the resulting store and the reported facts are identical to those
for the entry with its dateless records removed (so a dropped record is
counted in no entryCount and triggers no error); and a dateless record
is written to no partition — it appears after the write only where it
already was. -/
theorem C9_writer_drops_invalid (siteSlug : String) (st : Store) (e : HEntry) :
    (e.serialNo = "" ∨ e.History = [] →
      writeThermostatHistoryByDate siteSlug st e = (st, none))
    ∧ (writeThermostatHistoryByDate siteSlug st e).1
        = (writeThermostatHistoryByDate siteSlug st
            ⟨e.serialNo, e.History.filter
              (fun r => (extractDateFromTimestamp r.timestamp).isSome)⟩).1
    ∧ (writeThermostatHistoryByDate siteSlug st e).2.getD []
        = (writeThermostatHistoryByDate siteSlug st
            ⟨e.serialNo, e.History.filter
              (fun r => (extractDateFromTimestamp r.timestamp).isSome)⟩).2.getD []
    ∧ (∀ x ∈ e.History, extractDateFromTimestamp x.timestamp = none →
        ∀ k, x ∈ (lookupStore (writeThermostatHistoryByDate siteSlug st e).1 k).getD [] →
          x ∈ (lookupStore st k).getD []) := by
  refine ⟨?_, ?_, ?_, ?_⟩
  · intro h
    rcases h with h | h
    · simp [writeThermostatHistoryByDate, h]
    · simp [writeThermostatHistoryByDate, h]
  · by_cases hs : e.serialNo = ""
    · simp [writeThermostatHistoryByDate, hs]
    · by_cases hh : e.History = []
      · simp [writeThermostatHistoryByDate, hs, hh]
      · by_cases hf : e.History.filter
            (fun r => (extractDateFromTimestamp r.timestamp).isSome) = []
        · have hgroups : groupByDate e.History = [] := by
            rw [groupByDate_filter e.History, hf]
            rfl
          simp [writeThermostatHistoryByDate, hs, hh, hf, hgroups, writeGroups]
        · simp only [writeThermostatHistoryByDate, hs, hh, hf, if_false, ite_false]
          rw [groupByDate_filter e.History]
  · by_cases hs : e.serialNo = ""
    · simp [writeThermostatHistoryByDate, hs]
    · by_cases hh : e.History = []
      · simp [writeThermostatHistoryByDate, hs, hh]
      · by_cases hf : e.History.filter
            (fun r => (extractDateFromTimestamp r.timestamp).isSome) = []
        · have hgroups : groupByDate e.History = [] := by
            rw [groupByDate_filter e.History, hf]
            rfl
          simp [writeThermostatHistoryByDate, hs, hh, hf, hgroups, writeGroups]
        · simp only [writeThermostatHistoryByDate, hs, hh, hf, if_false, ite_false]
          rw [groupByDate_filter e.History]
  · intro x hx hnone k hmem
    rw [writeThermostatHistoryByDate] at hmem
    split at hmem
    · exact hmem
    · split at hmem
      · exact hmem
      · rcases writeGroups_mem_source siteSlug e.serialNo
            (sanitizeFileSegment e.serialNo "unknown")
            (groupByDate e.History) st [] k x hmem with h | ⟨g, hg, hxg⟩
        · exact h
        · exfalso
          have hvalid := groupByDate_mem_valid e.History g x hg hxg
          rw [hnone] at hvalid
          simp at hvalid

/-- Witness for C9: an entry with a falsy serialNo is skipped entirely —
no write, no fact. -/
theorem C9_writer_drops_invalid_witness :
    ((⟨"", [⟨"2025-01-01T00:00", "x"⟩]⟩ : HEntry).serialNo = ""
      ∨ (⟨"", [⟨"2025-01-01T00:00", "x"⟩]⟩ : HEntry).History = [])
    ∧ writeThermostatHistoryByDate "site" []
        ⟨"", [⟨"2025-01-01T00:00", "x"⟩]⟩ = ([], none) :=
  ⟨Or.inl rfl,
    (C9_writer_drops_invalid "site" [] ⟨"", [⟨"2025-01-01T00:00", "x"⟩]⟩).1
      (Or.inl rfl)⟩

end Spec2Proof
